import Mathlib

/-!
Verification of the geometric core of the `plotter_generator` repository.

The embedding follows `src/vec.rs` and `src/main.rs`.  The float arithmetic of
the source (`f32`) is idealised as exact arithmetic: structural claims about
the Hilbert-curve generator are settled over `ℚ`, and the geometry that uses
`sqrt`/`normalize` is settled over `ℝ`.
-/

/-- Embedding of `Vec2` from `src/vec.rs`: a 2D vector with two scalar fields. -/
structure Vec2 (α : Type) where
  x : α
  y : α
deriving DecidableEq, Repr

/-- Embedding of the `vec2` constructor function from `src/vec.rs`. -/
def vec2 {α : Type} (x y : α) : Vec2 α := ⟨x, y⟩

/-- Embedding of `Vec2::ZERO` from `src/vec.rs`. -/
def Vec2.ZERO {α : Type} [Field α] : Vec2 α := vec2 0 0

instance {α : Type} [Field α] : Add (Vec2 α) :=
  ⟨fun u v => vec2 (u.x + v.x) (u.y + v.y)⟩

instance {α : Type} [Field α] : Sub (Vec2 α) :=
  ⟨fun u v => vec2 (u.x - v.x) (u.y - v.y)⟩

instance {α : Type} [Field α] : Neg (Vec2 α) :=
  ⟨fun v => vec2 (-v.x) (-v.y)⟩

instance {α : Type} [Field α] : HDiv (Vec2 α) α (Vec2 α) :=
  ⟨fun v s => vec2 (v.x / s) (v.y / s)⟩

instance {α : Type} [Field α] : HMul (Vec2 α) α (Vec2 α) :=
  ⟨fun v s => vec2 (v.x * s) (v.y * s)⟩

@[simp] theorem vec2_x {α : Type} (a b : α) : (vec2 a b).x = a := rfl

@[simp] theorem vec2_y {α : Type} (a b : α) : (vec2 a b).y = b := rfl

@[simp] theorem Vec2.add_x {α : Type} [Field α] (u v : Vec2 α) : (u + v).x = u.x + v.x := rfl

@[simp] theorem Vec2.add_y {α : Type} [Field α] (u v : Vec2 α) : (u + v).y = u.y + v.y := rfl

@[simp] theorem Vec2.sub_x {α : Type} [Field α] (u v : Vec2 α) : (u - v).x = u.x - v.x := rfl

@[simp] theorem Vec2.sub_y {α : Type} [Field α] (u v : Vec2 α) : (u - v).y = u.y - v.y := rfl

@[simp] theorem Vec2.neg_x {α : Type} [Field α] (v : Vec2 α) : (-v).x = -v.x := rfl

@[simp] theorem Vec2.neg_y {α : Type} [Field α] (v : Vec2 α) : (-v).y = -v.y := rfl

@[simp] theorem Vec2.div_x {α : Type} [Field α] (v : Vec2 α) (s : α) : (v / s).x = v.x / s := rfl

@[simp] theorem Vec2.div_y {α : Type} [Field α] (v : Vec2 α) (s : α) : (v / s).y = v.y / s := rfl

@[simp] theorem Vec2.mul_x {α : Type} [Field α] (v : Vec2 α) (s : α) : (v * s).x = v.x * s := rfl

@[simp] theorem Vec2.mul_y {α : Type} [Field α] (v : Vec2 α) (s : α) : (v * s).y = v.y * s := rfl

theorem Vec2.eq_iff {α : Type} (u v : Vec2 α) : u = v ↔ u.x = v.x ∧ u.y = v.y := by
  cases u with
  | mk ux uy =>
    cases v with
    | mk vx vy => simp [Vec2.mk.injEq]

/-- Embedding of `hilbert_curve` from `src/main.rs` (lines 192-217): classic
quadrant recursion producing the ordered list of cell-center points. -/
def hilbert_curve {α : Type} [Field α] : Vec2 α → Vec2 α → Vec2 α → ℕ → List (Vec2 α)
  | p, x_vec, y_vec, 0 => [p + x_vec / (2 : α) + y_vec / (2 : α)]
  | p, x_vec, y_vec, n + 1 =>
      hilbert_curve p (y_vec / (2 : α)) (x_vec / (2 : α)) n
        ++ hilbert_curve (p + x_vec / (2 : α)) (x_vec / (2 : α)) (y_vec / (2 : α)) n
        ++ hilbert_curve (p + x_vec / (2 : α) + y_vec / (2 : α)) (x_vec / (2 : α)) (y_vec / (2 : α)) n
        ++ hilbert_curve (p + x_vec / (2 : α) + y_vec) (-(y_vec / (2 : α))) (-(x_vec / (2 : α))) n

/-- C1: for every depth `d` and every origin/edge-vector pair, the Hilbert
curve generator returns a sequence of exactly `4 ^ d` points. -/
theorem hilbert_curve_length_pow {α : Type} [Field α]
    (p x_vec y_vec : Vec2 α) (d : ℕ) :
    (hilbert_curve p x_vec y_vec d).length = 4 ^ d := by
  induction d generalizing p x_vec y_vec with
  | zero => rfl
  | succ n ih =>
    simp only [hilbert_curve, List.length_append, ih]
    ring

/-- C2: the generator follows exactly the stated quadrant recursion: at depth 0
it emits the single point `origin + x_edge/2 + y_edge/2`, at depth `d+1` it is
the concatenation, in the fixed order of §4.2, of the four recursive calls with
the stated swapped/negated axes, and the depth-1 golden test on the 100×100
square yields the four quadrant centers (25,25), (75,25), (75,75), (25,75). -/
theorem hilbert_curve_recursion_spec :
    (∀ (p x_vec y_vec : Vec2 ℚ),
      hilbert_curve p x_vec y_vec 0 = [p + x_vec / (2 : ℚ) + y_vec / (2 : ℚ)])
    ∧ (∀ (p x_vec y_vec : Vec2 ℚ) (d : ℕ),
      hilbert_curve p x_vec y_vec (d + 1) =
        hilbert_curve p (y_vec / (2 : ℚ)) (x_vec / (2 : ℚ)) d
          ++ hilbert_curve (p + x_vec / (2 : ℚ)) (x_vec / (2 : ℚ)) (y_vec / (2 : ℚ)) d
          ++ hilbert_curve (p + x_vec / (2 : ℚ) + y_vec / (2 : ℚ)) (x_vec / (2 : ℚ)) (y_vec / (2 : ℚ)) d
          ++ hilbert_curve (p + x_vec / (2 : ℚ) + y_vec) (-(y_vec / (2 : ℚ))) (-(x_vec / (2 : ℚ))) d)
    ∧ hilbert_curve (vec2 (0 : ℚ) 0) (vec2 100 0) (vec2 0 100) 1 =
        [vec2 25 25, vec2 75 25, vec2 75 75, vec2 25 75] := by
  refine ⟨fun p x_vec y_vec => rfl, fun p x_vec y_vec d => rfl, ?_⟩
  norm_num [hilbert_curve, Vec2.eq_iff]

/-- Embedding of `Vec2::len` from `src/vec.rs`: `(x.powi(2) + y.powi(2)).sqrt()`. -/
noncomputable def Vec2.len (v : Vec2 ℝ) : ℝ := Real.sqrt (v.x ^ 2 + v.y ^ 2)

/-- Embedding of `Vec2::normalize` from `src/vec.rs`: `*self / self.len()`. -/
noncomputable def Vec2.normalize (v : Vec2 ℝ) : Vec2 ℝ := v / v.len

/-- Embedding of the itertools three-element `tuple_windows` iterator used by
`wonky_offset_line` and `offset_line` in `src/main.rs`. -/
def tupleWindows3 {α : Type} : List α → List (α × α × α)
  | a :: b :: c :: rest => (a, b, c) :: tupleWindows3 (b :: c :: rest)
  | _ => []

open Classical in
/-- Embedding of `direction_of_corner` from `src/main.rs` (lines 223-234). -/
noncomputable def direction_of_corner (a b c : Vec2 ℝ) : Option (Vec2 ℝ) :=
  let ba := (a - b).normalize
  let bc := (c - b).normalize
  let dir := ba + bc
  if dir = Vec2.ZERO then none else some dir.normalize

/-- Embedding of `wonky_offset_line` from `src/main.rs` (lines 122-132). -/
noncomputable def wonky_offset_line (points : List (Vec2 ℝ)) (amount : ℝ) : List (Vec2 ℝ) :=
  (tupleWindows3 points).filterMap fun w =>
    (direction_of_corner w.1 w.2.1 w.2.2).map fun direction => w.2.1 + direction * amount

/-- The loop body of `offset_line` from `src/main.rs` (lines 157-167): the
offset point computed for one window `(a, b, c)`. -/
noncomputable def offset_point (offset : ℝ) (w : Vec2 ℝ × Vec2 ℝ × Vec2 ℝ) : Vec2 ℝ :=
  let ab := (w.2.1 - w.1).normalize
  let bc := (w.2.2 - w.2.1).normalize
  let ab_90 := vec2 ab.y (-ab.x)
  let bc_90 := vec2 bc.y (-bc.x)
  let bisector := (ab_90 + bc_90).normalize
  let length := offset / Real.sqrt ((1 + ab_90.x * bc_90.x + ab_90.y * bc_90.y) / 2)
  w.2.1 + bisector * length

/-- Embedding of `offset_line` from `src/main.rs` (lines 154-171). -/
noncomputable def offset_line (points : List (Vec2 ℝ)) (offset : ℝ) : List (Vec2 ℝ) :=
  (tupleWindows3 points).map (offset_point offset)

/-- Mathematical vocabulary for the statements: dot product of two vectors. -/
def dot {α : Type} [Field α] (u v : Vec2 α) : α := u.x * v.x + u.y * v.y

/-- Mathematical vocabulary for the statements: 2D cross product. -/
def cross {α : Type} [Field α] (u v : Vec2 α) : α := u.x * v.y - u.y * v.x

/-- Mathematical vocabulary for the statements: squared Euclidean norm. -/
def normSq {α : Type} [Field α] (v : Vec2 α) : α := v.x ^ 2 + v.y ^ 2

/-- Mathematical vocabulary for the statements: three points lie on one line. -/
def collinearPts (a b c : Vec2 ℝ) : Prop := cross (b - a) (c - a) = 0

theorem tupleWindows3_eq_nil {α : Type} (l : List α) (h : l.length < 3) :
    tupleWindows3 l = [] := by
  match l with
  | [] => rfl
  | [_] => rfl
  | [_, _] => rfl
  | a :: b :: c :: r => simp at h; omega

theorem tupleWindows3_length {α : Type} : ∀ l : List α,
    (tupleWindows3 l).length = l.length - 2
  | [] => rfl
  | [_] => rfl
  | [_, _] => rfl
  | a :: b :: c :: r => by
    have ih := tupleWindows3_length (b :: c :: r)
    simp only [tupleWindows3, List.length_cons] at ih ⊢
    omega

/-- C10: on an input of fewer than three points, no window of three consecutive
points exists, so both offset functions return the empty sequence. -/
theorem offset_short_input_empty (points : List (Vec2 ℝ)) (d : ℝ)
    (h : points.length < 3) :
    wonky_offset_line points d = [] ∧ offset_line points d = [] := by
  unfold wonky_offset_line offset_line
  rw [tupleWindows3_eq_nil _ h]
  simp

/-- Witness for C10 at the concrete two-point input. -/
theorem offset_short_input_empty_witness :
    ([vec2 (0 : ℝ) 0, vec2 1 1].length < 3)
    ∧ wonky_offset_line [vec2 (0 : ℝ) 0, vec2 1 1] 1 = []
    ∧ offset_line [vec2 (0 : ℝ) 0, vec2 1 1] 1 = [] :=
  ⟨by norm_num, (offset_short_input_empty _ 1 (by norm_num)).1,
    (offset_short_input_empty _ 1 (by norm_num)).2⟩

/-- C6: `offset_line` emits exactly one output point per sliding window of
three consecutive points, unconditionally, so on an input of `N ≥ 2` points its
output has exactly `N - 2` points. -/
theorem offset_line_length (points : List (Vec2 ℝ)) (offset : ℝ)
    (h : 2 ≤ points.length) :
    (offset_line points offset).length = points.length - 2 := by
  unfold offset_line
  rw [List.length_map, tupleWindows3_length]

/-- Witness for C6 at a concrete four-point input. -/
theorem offset_line_length_witness :
    (2 ≤ ([vec2 (0 : ℝ) 0, vec2 1 0, vec2 1 1, vec2 2 1] : List (Vec2 ℝ)).length)
    ∧ (offset_line [vec2 (0 : ℝ) 0, vec2 1 0, vec2 1 1, vec2 2 1] 1).length = 2 :=
  ⟨by norm_num,
    by simpa using offset_line_length [vec2 (0 : ℝ) 0, vec2 1 0, vec2 1 1, vec2 2 1] 1 (by norm_num)⟩

/-- C9: the Hilbert curve generator is deterministic: two calls with identical
arguments return identical point sequences (the embedding of the generator is a
pure function of its arguments). -/
theorem hilbert_curve_deterministic (p₁ p₂ x₁ x₂ y₁ y₂ : Vec2 ℚ) (n₁ n₂ : ℕ)
    (hp : p₁ = p₂) (hx : x₁ = x₂) (hy : y₁ = y₂) (hn : n₁ = n₂) :
    hilbert_curve p₁ x₁ y₁ n₁ = hilbert_curve p₂ x₂ y₂ n₂ := by
  subst hp hx hy hn
  rfl

/-- Witness for C9 at concrete arguments. -/
theorem hilbert_curve_deterministic_witness :
    (vec2 (0 : ℚ) 0 = vec2 0 0)
    ∧ hilbert_curve (vec2 (0 : ℚ) 0) (vec2 100 0) (vec2 0 100) 3 =
        hilbert_curve (vec2 (0 : ℚ) 0) (vec2 100 0) (vec2 0 100) 3 :=
  ⟨rfl, hilbert_curve_deterministic _ _ _ _ _ _ 3 3 rfl rfl rfl rfl⟩

theorem Vec2.add_comm_vec {α : Type} [Field α] (u v : Vec2 α) : u + v = v + u := by
  rw [Vec2.eq_iff]
  constructor <;> simp [add_comm]

theorem Vec2.normalize_x (v : Vec2 ℝ) : v.normalize.x = v.x / v.len := rfl

theorem Vec2.normalize_y (v : Vec2 ℝ) : v.normalize.y = v.y / v.len := rfl

theorem Vec2.len_pos (v : Vec2 ℝ) (h : v ≠ vec2 0 0) : 0 < v.len := by
  have h' : ¬(v.x = 0 ∧ v.y = 0) := by
    intro hc
    exact h ((Vec2.eq_iff v (vec2 0 0)).mpr (by simpa using hc))
  unfold Vec2.len
  rw [Real.sqrt_pos]
  rcases not_and_or.mp h' with hx | hy
  · have := pow_two_pos_of_ne_zero hx
    nlinarith [sq_nonneg v.y]
  · have := pow_two_pos_of_ne_zero hy
    nlinarith [sq_nonneg v.x]

theorem Vec2.len_sq (v : Vec2 ℝ) : v.len ^ 2 = v.x ^ 2 + v.y ^ 2 :=
  Real.sq_sqrt (by positivity)

theorem Vec2.normalize_normSq (v : Vec2 ℝ) (h : v ≠ vec2 0 0) :
    v.normalize.x ^ 2 + v.normalize.y ^ 2 = 1 := by
  have hp := Vec2.len_pos v h
  have hs := Vec2.len_sq v
  rw [Vec2.normalize_x, Vec2.normalize_y]
  field_simp
  linarith

/-- Evaluation helper: `normalize` at a vector whose length is the given
nonnegative scalar `L`. -/
theorem Vec2.normalize_eval (v : Vec2 ℝ) (L : ℝ) (hL : 0 ≤ L)
    (h : v.x ^ 2 + v.y ^ 2 = L ^ 2) :
    v.normalize = vec2 (v.x / L) (v.y / L) := by
  unfold Vec2.normalize Vec2.len
  rw [h, Real.sqrt_sq hL]
  rfl

/-- C8: swapping the outer points `a` and `c` leaves the corner direction
unchanged (the two normalized legs are summed commutatively). -/
theorem direction_of_corner_swap (a b c : Vec2 ℝ) (hab : a ≠ b) (hcb : c ≠ b) :
    direction_of_corner a b c = direction_of_corner c b a := by
  simp only [direction_of_corner]
  rw [Vec2.add_comm_vec ((a - b).normalize) ((c - b).normalize)]

/-- Witness for C8 at the 90° corner of the repository's unit test. -/
theorem direction_of_corner_swap_witness :
    (vec2 (0 : ℝ) 0 ≠ vec2 10 0) ∧ (vec2 (10 : ℝ) 5 ≠ vec2 10 0)
    ∧ direction_of_corner (vec2 0 0) (vec2 10 0) (vec2 10 5) =
        direction_of_corner (vec2 10 5) (vec2 10 0) (vec2 0 0) :=
  ⟨by norm_num [Vec2.eq_iff], by norm_num [Vec2.eq_iff],
    direction_of_corner_swap _ _ _ (by norm_num [Vec2.eq_iff]) (by norm_num [Vec2.eq_iff])⟩

/-- Evaluation of the 90° corner from the repository's unit test, in exact real
arithmetic: the inward bisector is `(-√2/2, √2/2)`. -/
theorem direction_90_eval :
    direction_of_corner (vec2 0 0) (vec2 10 0) (vec2 10 5) =
      some (vec2 (-(Real.sqrt 2) / 2) (Real.sqrt 2 / 2)) := by
  have hba : (vec2 (0 : ℝ) 0 - vec2 10 0).normalize = vec2 (-1) 0 := by
    rw [show vec2 (0 : ℝ) 0 - vec2 10 0 = vec2 (-10) 0 by norm_num [Vec2.eq_iff],
      Vec2.normalize_eval _ 10 (by norm_num) (by norm_num)]
    norm_num [Vec2.eq_iff]
  have hbc : (vec2 (10 : ℝ) 5 - vec2 10 0).normalize = vec2 0 1 := by
    rw [show vec2 (10 : ℝ) 5 - vec2 10 0 = vec2 0 5 by norm_num [Vec2.eq_iff],
      Vec2.normalize_eval _ 5 (by norm_num) (by norm_num)]
    norm_num [Vec2.eq_iff]
  have hsum : (vec2 ((-1 : ℝ)) 0) + vec2 0 1 = vec2 (-1) 1 := by
    norm_num [Vec2.eq_iff]
  have hs2 : Real.sqrt 2 * Real.sqrt 2 = 2 := Real.mul_self_sqrt (by norm_num)
  have hspos : (0 : ℝ) < Real.sqrt 2 := Real.sqrt_pos.mpr (by norm_num)
  have hdir : (vec2 ((-1) : ℝ) 1).normalize = vec2 (-(Real.sqrt 2) / 2) (Real.sqrt 2 / 2) := by
    rw [Vec2.normalize_eval _ (Real.sqrt 2) (le_of_lt hspos)
      (by rw [Real.sq_sqrt (show (0 : ℝ) ≤ 2 by norm_num)]; norm_num)]
    rw [Vec2.eq_iff]
    constructor
    · show (-1 : ℝ) / Real.sqrt 2 = -(Real.sqrt 2) / 2
      rw [div_eq_div_iff (ne_of_gt hspos) (by norm_num)]
      nlinarith [hs2]
    · show (1 : ℝ) / Real.sqrt 2 = Real.sqrt 2 / 2
      rw [div_eq_div_iff (ne_of_gt hspos) (by norm_num)]
      nlinarith [hs2]
  simp only [direction_of_corner, hba, hbc, hsum]
  rw [if_neg (by norm_num [Vec2.eq_iff, Vec2.ZERO]), hdir]

/-- C4 (amended): `direction_of_corner` returns `none` exactly when the sum of
the two normalized legs is the zero vector, and otherwise `some` of the
normalized sum; the collinear example returns `none`, and the 90° example
returns `some (-√2/2, √2/2)` — the exact real value whose `f32` rounding prints
as `(-0.70710677, 0.70710677)`. -/
theorem direction_of_corner_spec :
    (∀ a b c : Vec2 ℝ,
      direction_of_corner a b c = none ↔
        (a - b).normalize + (c - b).normalize = Vec2.ZERO)
    ∧ (∀ a b c : Vec2 ℝ, (a - b).normalize + (c - b).normalize ≠ Vec2.ZERO →
      direction_of_corner a b c = some ((a - b).normalize + (c - b).normalize).normalize)
    ∧ direction_of_corner (vec2 0 0) (vec2 10 0) (vec2 20 0) = none
    ∧ direction_of_corner (vec2 0 0) (vec2 10 0) (vec2 10 5) =
        some (vec2 (-(Real.sqrt 2) / 2) (Real.sqrt 2 / 2)) := by
  refine ⟨?_, ?_, ?_, direction_90_eval⟩
  · intro a b c
    by_cases h : (a - b).normalize + (c - b).normalize = Vec2.ZERO <;>
      simp [direction_of_corner, h]
  · intro a b c h
    simp [direction_of_corner, h]
  · have hba : (vec2 (0 : ℝ) 0 - vec2 10 0).normalize = vec2 (-1) 0 := by
      rw [show vec2 (0 : ℝ) 0 - vec2 10 0 = vec2 (-10) 0 by norm_num [Vec2.eq_iff],
        Vec2.normalize_eval _ 10 (by norm_num) (by norm_num)]
      norm_num [Vec2.eq_iff]
    have hbc : (vec2 (20 : ℝ) 0 - vec2 10 0).normalize = vec2 1 0 := by
      rw [show vec2 (20 : ℝ) 0 - vec2 10 0 = vec2 10 0 by norm_num [Vec2.eq_iff],
        Vec2.normalize_eval _ 10 (by norm_num) (by norm_num)]
      norm_num [Vec2.eq_iff]
    simp only [direction_of_corner, hba, hbc]
    rw [if_pos (by norm_num [Vec2.eq_iff, Vec2.ZERO])]

/-- Witness for C4: applying the structural part at the collinear input. -/
theorem direction_of_corner_spec_witness :
    ((vec2 (0 : ℝ) 0 - vec2 10 0).normalize + (vec2 (10 : ℝ) 5 - vec2 10 0).normalize ≠ Vec2.ZERO)
    ∧ direction_of_corner (vec2 0 0) (vec2 10 0) (vec2 10 5) =
        some ((vec2 (0 : ℝ) 0 - vec2 10 0).normalize + (vec2 (10 : ℝ) 5 - vec2 10 0).normalize).normalize := by
  have hba : (vec2 (0 : ℝ) 0 - vec2 10 0).normalize = vec2 (-1) 0 := by
    rw [show vec2 (0 : ℝ) 0 - vec2 10 0 = vec2 (-10) 0 by norm_num [Vec2.eq_iff],
      Vec2.normalize_eval _ 10 (by norm_num) (by norm_num)]
    norm_num [Vec2.eq_iff]
  have hbc : (vec2 (10 : ℝ) 5 - vec2 10 0).normalize = vec2 0 1 := by
    rw [show vec2 (10 : ℝ) 5 - vec2 10 0 = vec2 0 5 by norm_num [Vec2.eq_iff],
      Vec2.normalize_eval _ 5 (by norm_num) (by norm_num)]
    norm_num [Vec2.eq_iff]
  have hne : (vec2 (0 : ℝ) 0 - vec2 10 0).normalize + (vec2 (10 : ℝ) 5 - vec2 10 0).normalize ≠ Vec2.ZERO := by
    rw [hba, hbc]
    norm_num [Vec2.eq_iff, Vec2.ZERO]
  exact ⟨hne, direction_of_corner_spec.2.1 _ _ _ hne⟩

/-- Counterexample for C4 as frozen: in exact arithmetic the 90° corner result
is not the decimal pair `(-0.70710677, 0.70710677)` (that pair squares to a
rational different from 1/2, while the true component is `√2/2`). -/
theorem direction_of_corner_decimal_counterexample :
    direction_of_corner (vec2 0 0) (vec2 10 0) (vec2 10 5) ≠
      some (vec2 ((-0.70710677 : ℝ)) 0.70710677) := by
  rw [direction_90_eval]
  intro h
  have h' : vec2 (-(Real.sqrt 2) / 2) (Real.sqrt 2 / 2) = vec2 ((-0.70710677 : ℝ)) 0.70710677 :=
    Option.some_injective _ h
  have hy : Real.sqrt 2 / 2 = (0.70710677 : ℝ) := ((Vec2.eq_iff _ _).mp h').2
  have hs2 : Real.sqrt 2 * Real.sqrt 2 = 2 := Real.mul_self_sqrt (by norm_num)
  have hval : Real.sqrt 2 = (1.41421354 : ℝ) := by
    rw [div_eq_iff (by norm_num : (2 : ℝ) ≠ 0)] at hy
    rw [hy]
    norm_num
  rw [hval] at hs2
  norm_num at hs2

/-- No window of three consecutive points of the sequence is collinear. -/
def noCollinearWindow (points : List (Vec2 ℝ)) : Prop :=
  ∀ w ∈ tupleWindows3 points, ¬collinearPts w.1 w.2.1 w.2.2

theorem length_filterMap_eq_of_isSome {α β : Type} (f : α → Option β) :
    ∀ l : List α, (∀ a ∈ l, (f a).isSome) → (l.filterMap f).length = l.length
  | [], _ => rfl
  | a :: t, h => by
    obtain ⟨b, hb⟩ := Option.isSome_iff_exists.mp (h a (List.mem_cons_self a t))
    rw [List.filterMap_cons, hb]
    simp only [List.length_cons]
    rw [length_filterMap_eq_of_isSome f t (fun x hx => h x (List.mem_cons_of_mem _ hx))]

/-- When the three points are not collinear, the two normalized legs cannot
cancel, so a corner direction exists. -/
theorem direction_of_corner_isSome (a b c : Vec2 ℝ) (h : ¬collinearPts a b c) :
    (direction_of_corner a b c).isSome := by
  have hab : a - b ≠ vec2 0 0 := by
    intro h0
    apply h
    have hx : a.x - b.x = 0 := by simpa using ((Vec2.eq_iff _ _).mp h0).1
    have hy : a.y - b.y = 0 := by simpa using ((Vec2.eq_iff _ _).mp h0).2
    unfold collinearPts cross
    simp only [Vec2.sub_x, Vec2.sub_y]
    linear_combination (-(c.y - a.y)) * hx + (c.x - a.x) * hy
  have hcb : c - b ≠ vec2 0 0 := by
    intro h0
    apply h
    have hx : c.x - b.x = 0 := by simpa using ((Vec2.eq_iff _ _).mp h0).1
    have hy : c.y - b.y = 0 := by simpa using ((Vec2.eq_iff _ _).mp h0).2
    unfold collinearPts cross
    simp only [Vec2.sub_x, Vec2.sub_y]
    linear_combination (b.x - a.x) * hy - (b.y - a.y) * hx
  have hLa0 : 0 < (a - b).len := Vec2.len_pos _ hab
  have hLc0 : 0 < (c - b).len := Vec2.len_pos _ hcb
  have hdir : (a - b).normalize + (c - b).normalize ≠ Vec2.ZERO := by
    intro h0
    apply h
    have hx : (a.x - b.x) / (a - b).len + (c.x - b.x) / (c - b).len = 0 := by
      have := ((Vec2.eq_iff _ _).mp h0).1
      simpa [Vec2.normalize, Vec2.ZERO] using this
    have hy : (a.y - b.y) / (a - b).len + (c.y - b.y) / (c - b).len = 0 := by
      have := ((Vec2.eq_iff _ _).mp h0).2
      simpa [Vec2.normalize, Vec2.ZERO] using this
    have hx' : (a.x - b.x) * (c - b).len + (c.x - b.x) * (a - b).len = 0 := by
      field_simp at hx
      linear_combination hx
    have hy' : (a.y - b.y) * (c - b).len + (c.y - b.y) * (a - b).len = 0 := by
      field_simp at hy
      linear_combination hy
    unfold collinearPts cross
    simp only [Vec2.sub_x, Vec2.sub_y]
    have key : (a - b).len *
        ((b.x - a.x) * (c.y - a.y) - (b.y - a.y) * (c.x - a.x)) = 0 := by
      linear_combination (a.y - b.y) * hx' - (a.x - b.x) * hy'
    rcases mul_eq_zero.mp key with h1 | h2
    · exact absurd h1 (ne_of_gt hLa0)
    · exact h2
  simp only [direction_of_corner]
  rw [if_neg hdir]
  rfl

/-- C5: the corner-bisector offset emits at most `N - 2` points; exactly
`N - 2` when no window of three consecutive input points is collinear; and for
each window `(a, b, c)` with a defined corner direction it emits exactly
`b + direction * d`. -/
theorem wonky_offset_line_spec (points : List (Vec2 ℝ)) (d : ℝ) :
    (wonky_offset_line points d).length ≤ points.length - 2
    ∧ (noCollinearWindow points →
        (wonky_offset_line points d).length = points.length - 2)
    ∧ (∀ w ∈ tupleWindows3 points, ∀ dir,
        direction_of_corner w.1 w.2.1 w.2.2 = some dir →
        w.2.1 + dir * d ∈ wonky_offset_line points d) := by
  refine ⟨?_, ?_, ?_⟩
  · unfold wonky_offset_line
    have h1 := List.length_filterMap_le
      (fun w : Vec2 ℝ × Vec2 ℝ × Vec2 ℝ =>
        (direction_of_corner w.1 w.2.1 w.2.2).map fun direction => w.2.1 + direction * d)
      (tupleWindows3 points)
    rw [tupleWindows3_length] at h1
    exact h1
  · intro hnc
    unfold wonky_offset_line
    have hsome : ∀ w ∈ tupleWindows3 points,
        ((direction_of_corner w.1 w.2.1 w.2.2).map
          fun direction : Vec2 ℝ => w.2.1 + direction * d).isSome := by
      intro w hw
      obtain ⟨dir, hdir⟩ := Option.isSome_iff_exists.mp
        (direction_of_corner_isSome w.1 w.2.1 w.2.2 (hnc w hw))
      simp [hdir]
    rw [length_filterMap_eq_of_isSome _ _ hsome, tupleWindows3_length]
  · intro w hw dir hdir
    unfold wonky_offset_line
    exact List.mem_filterMap.mpr ⟨w, hw, by rw [hdir]; rfl⟩

/-- Witness for C5 on a four-point polyline with no collinear window. -/
theorem wonky_offset_line_spec_witness :
    noCollinearWindow [vec2 (0 : ℝ) 0, vec2 10 0, vec2 10 5, vec2 20 5]
    ∧ (wonky_offset_line [vec2 (0 : ℝ) 0, vec2 10 0, vec2 10 5, vec2 20 5] 1).length =
        ([vec2 (0 : ℝ) 0, vec2 10 0, vec2 10 5, vec2 20 5] : List (Vec2 ℝ)).length - 2 := by
  have hnc : noCollinearWindow [vec2 (0 : ℝ) 0, vec2 10 0, vec2 10 5, vec2 20 5] := by
    intro w hw
    simp only [tupleWindows3, List.mem_cons, List.not_mem_nil, or_false] at hw
    rcases hw with rfl | rfl
    · norm_num [collinearPts, cross, Vec2.eq_iff]
    · norm_num [collinearPts, cross, Vec2.eq_iff]
  exact ⟨hnc, (wonky_offset_line_spec _ 1).2.1 hnc⟩

theorem tupleWindows3_rel {α : Type} (R : α → α → Prop) :
    ∀ l : List α, List.Chain' R l →
      ∀ w ∈ tupleWindows3 l, R w.1 w.2.1 ∧ R w.2.1 w.2.2
  | [], _, w, hw => by simp [tupleWindows3] at hw
  | [_], _, w, hw => by simp [tupleWindows3] at hw
  | [_, _], _, w, hw => by simp [tupleWindows3] at hw
  | a :: b :: c :: r, hch, w, hw => by
    have h1 : R a b := (List.chain'_cons.mp hch).1
    have hch' : List.Chain' R (b :: c :: r) := (List.chain'_cons.mp hch).2
    have h2 : R b c := (List.chain'_cons.mp hch').1
    simp only [tupleWindows3, List.mem_cons] at hw
    rcases hw with rfl | hw
    · exact ⟨h1, h2⟩
    · exact tupleWindows3_rel R (b :: c :: r) hch' w hw

theorem tupleWindows3_mem_middle {α : Type} :
    ∀ l : List α, ∀ w ∈ tupleWindows3 l, w.2.1 ∈ l
  | [], w, hw => by simp [tupleWindows3] at hw
  | [_], w, hw => by simp [tupleWindows3] at hw
  | [_, _], w, hw => by simp [tupleWindows3] at hw
  | a :: b :: c :: r, w, hw => by
    simp only [tupleWindows3, List.mem_cons] at hw
    rcases hw with rfl | hw
    · simp
    · exact List.mem_cons_of_mem _ (tupleWindows3_mem_middle (b :: c :: r) w hw)

/-- A straight, equally spaced run of points: consecutive differences are `v`. -/
theorem run_chain (p v : Vec2 ℝ) (k : ℕ) :
    List.Chain' (fun q r => r - q = v) ((List.range k).map fun i : ℕ => p + v * (i : ℝ)) := by
  apply List.chain'_iff_get.mpr
  intro i h
  simp only [List.get_eq_getElem, List.getElem_map, List.getElem_range]
  rw [Vec2.eq_iff]
  push_cast
  constructor <;> simp <;> ring

theorem run_mem (p v : Vec2 ℝ) (k : ℕ) (b : Vec2 ℝ)
    (hb : b ∈ (List.range k).map fun i : ℕ => p + v * (i : ℝ)) :
    ∃ i : ℕ, b = p + v * (i : ℝ) := by
  obtain ⟨i, _, rfl⟩ := List.mem_map.mp hb
  exact ⟨i, rfl⟩

theorem Vec2.double_normalize (w : Vec2 ℝ) (h : w.x ^ 2 + w.y ^ 2 = 1) :
    (w + w).normalize = w := by
  have hlen : (w + w).len = 2 := by
    unfold Vec2.len
    rw [show ((w + w).x ^ 2 + (w + w).y ^ 2) = 2 ^ 2 by
      simp only [Vec2.add_x, Vec2.add_y]; nlinarith [h]]
    exact Real.sqrt_sq (by norm_num)
  unfold Vec2.normalize
  rw [hlen, Vec2.eq_iff]
  constructor <;> simp

/-- On a window of a straight equally spaced run, the per-window computation of
`offset_line` degenerates to a plain perpendicular translation by `d`. -/
theorem offset_point_straight (d : ℝ) (a b c v : Vec2 ℝ) (hv : v ≠ vec2 0 0)
    (hab : b - a = v) (hbc : c - b = v) :
    offset_point d (a, b, c) = b + vec2 v.normalize.y (-(v.normalize.x)) * d := by
  have hu1 : v.normalize.x ^ 2 + v.normalize.y ^ 2 = 1 := Vec2.normalize_normSq v hv
  simp only [offset_point, hab, hbc]
  have hperp : (vec2 v.normalize.y (-(v.normalize.x))).x ^ 2 +
      (vec2 v.normalize.y (-(v.normalize.x))).y ^ 2 = 1 := by
    simp only [vec2_x, vec2_y]
    nlinarith [hu1]
  rw [Vec2.double_normalize _ hperp]
  have harg : (1 + (vec2 v.normalize.y (-(v.normalize.x))).x *
      (vec2 v.normalize.y (-(v.normalize.x))).x +
      (vec2 v.normalize.y (-(v.normalize.x))).y *
      (vec2 v.normalize.y (-(v.normalize.x))).y) / 2 = 1 := by
    simp only [vec2_x, vec2_y]
    nlinarith [hu1]
  rw [harg, Real.sqrt_one, div_one]

/-- Mathematical vocabulary for the statements: perpendicular distance from a
point `q` to the line through `p` with direction `v`. -/
noncomputable def distToLine (q p v : Vec2 ℝ) : ℝ :=
  |dot (q - p) (vec2 v.y (-v.x))| / Real.sqrt (normSq v)

/-- C7: on a perfectly straight run of equally spaced points, every point that
`offset_line` emits lies at exactly perpendicular distance `|d|` from the line
through the run (the unsigned distance; the sign of `d` selects the side). -/
theorem offset_line_straight_run (p v : Vec2 ℝ) (k : ℕ) (d : ℝ) (hv : v ≠ vec2 0 0) :
    ∀ q ∈ offset_line ((List.range k).map fun i : ℕ => p + v * (i : ℝ)) d,
      distToLine q p v = |d| := by
  intro q hq
  unfold offset_line at hq
  obtain ⟨w, hw, rfl⟩ := List.mem_map.mp hq
  obtain ⟨a, b, c⟩ := w
  have hrel := tupleWindows3_rel _ _ (run_chain p v k) _ hw
  obtain ⟨i, hb⟩ := run_mem p v k b (tupleWindows3_mem_middle _ _ hw)
  rw [offset_point_straight d a b c v hv hrel.1 hrel.2, hb]
  have hLpos : 0 < Real.sqrt (v.x ^ 2 + v.y ^ 2) := Vec2.len_pos v hv
  have hL2 : Real.sqrt (v.x ^ 2 + v.y ^ 2) ^ 2 = v.x ^ 2 + v.y ^ 2 :=
    Real.sq_sqrt (by positivity)
  have hnum : dot ((p + v * (i : ℝ) + vec2 v.normalize.y (-(v.normalize.x)) * d) - p)
      (vec2 v.y (-v.x)) = d * Real.sqrt (v.x ^ 2 + v.y ^ 2) := by
    unfold dot
    simp only [Vec2.add_x, Vec2.add_y, Vec2.sub_x, Vec2.sub_y, Vec2.mul_x, Vec2.mul_y,
      vec2_x, vec2_y, Vec2.normalize_x, Vec2.normalize_y]
    have hlen : Vec2.len v = Real.sqrt (v.x ^ 2 + v.y ^ 2) := rfl
    rw [hlen]
    field_simp
    linear_combination (-d) * hL2
  unfold distToLine normSq
  rw [hnum, abs_mul, abs_of_nonneg (Real.sqrt_nonneg _), mul_div_assoc,
    div_self (ne_of_gt hLpos), mul_one]

/-- Evaluation of `offset_line` on the concrete horizontal 3-point run. -/
theorem offset_line_run_eval :
    offset_line ((List.range 3).map fun i : ℕ => vec2 (0 : ℝ) 0 + vec2 (1 : ℝ) 0 * (i : ℝ)) 1 =
      [vec2 1 (-1)] := by
  have hv : (vec2 (1 : ℝ) 0) ≠ vec2 0 0 := by norm_num [Vec2.eq_iff]
  have hrun : (List.range 3).map (fun i : ℕ => vec2 (0 : ℝ) 0 + vec2 (1 : ℝ) 0 * (i : ℝ)) =
      [vec2 0 0, vec2 1 0, vec2 2 0] := by
    rw [show List.range 3 = [0, 1, 2] from rfl]
    norm_num [Vec2.eq_iff]
  rw [hrun]
  unfold offset_line
  rw [show tupleWindows3 [vec2 (0 : ℝ) 0, vec2 1 0, vec2 2 0] =
    [(vec2 (0 : ℝ) 0, vec2 1 0, vec2 2 0)] from rfl]
  rw [List.map_cons, List.map_nil]
  rw [offset_point_straight 1 (vec2 0 0) (vec2 1 0) (vec2 2 0) (vec2 1 0) hv
    (by norm_num [Vec2.eq_iff]) (by norm_num [Vec2.eq_iff])]
  rw [Vec2.normalize_eval (vec2 (1 : ℝ) 0) 1 (by norm_num) (by norm_num)]
  norm_num [Vec2.eq_iff]

/-- Witness for C7 at the concrete horizontal run with distance 1. -/
theorem offset_line_straight_run_witness :
    (vec2 (1 : ℝ) 0 ≠ vec2 0 0)
    ∧ vec2 (1 : ℝ) (-1) ∈
        offset_line ((List.range 3).map fun i : ℕ => vec2 (0 : ℝ) 0 + vec2 (1 : ℝ) 0 * (i : ℝ)) 1
    ∧ distToLine (vec2 (1 : ℝ) (-1)) (vec2 0 0) (vec2 1 0) = |(1 : ℝ)| := by
  have hv : (vec2 (1 : ℝ) 0) ≠ vec2 0 0 := by norm_num [Vec2.eq_iff]
  have hmem : vec2 (1 : ℝ) (-1) ∈
      offset_line ((List.range 3).map fun i : ℕ => vec2 (0 : ℝ) 0 + vec2 (1 : ℝ) 0 * (i : ℝ)) 1 := by
    rw [offset_line_run_eval]
    simp
  exact ⟨hv, hmem, offset_line_straight_run (vec2 0 0) (vec2 1 0) 3 1 hv _ hmem⟩

theorem hilbert_curve_ne_nil {α : Type} [Field α] (p x_vec y_vec : Vec2 α) (n : ℕ) :
    hilbert_curve p x_vec y_vec n ≠ [] := by
  intro h
  have hlen := hilbert_curve_length_pow p x_vec y_vec n
  rw [h] at hlen
  simp at hlen
  have hpos : 0 < (4 : ℕ) ^ n := by positivity
  omega

/-- The first point of the generated sequence: `p + (x_vec + y_vec) / 2^(n+1)`. -/
theorem hilbert_curve_head (p x_vec y_vec : Vec2 ℚ) (n : ℕ) :
    (hilbert_curve p x_vec y_vec n).head? =
      some (p + (x_vec + y_vec) / ((2 : ℚ) ^ (n + 1))) := by
  induction n generalizing p x_vec y_vec with
  | zero =>
    simp only [hilbert_curve, List.head?_cons]
    congr 1
    rw [Vec2.eq_iff]
    constructor <;> simp <;> ring
  | succ n ih =>
    simp only [hilbert_curve]
    rw [List.append_assoc, List.append_assoc,
      List.head?_append_of_ne_nil _ (hilbert_curve_ne_nil _ _ _ _), ih]
    congr 1
    rw [Vec2.eq_iff]
    constructor <;> simp <;> (field_simp; ring)

/-- The last point of the generated sequence: `p + y_vec + (x_vec - y_vec) / 2^(n+1)`. -/
theorem hilbert_curve_last (p x_vec y_vec : Vec2 ℚ) (n : ℕ) :
    (hilbert_curve p x_vec y_vec n).getLast? =
      some (p + y_vec + (x_vec - y_vec) / ((2 : ℚ) ^ (n + 1))) := by
  induction n generalizing p x_vec y_vec with
  | zero =>
    simp only [hilbert_curve]
    rw [show ([p + x_vec / (2 : ℚ) + y_vec / (2 : ℚ)]).getLast? =
      some (p + x_vec / (2 : ℚ) + y_vec / (2 : ℚ)) from rfl]
    congr 1
    rw [Vec2.eq_iff]
    constructor <;> simp <;> ring
  | succ n ih =>
    simp only [hilbert_curve]
    rw [List.getLast?_append_of_ne_nil _ (hilbert_curve_ne_nil _ _ _ _), ih]
    congr 1
    rw [Vec2.eq_iff]
    constructor <;> simp <;> (field_simp; ring)

theorem Vec2.div_div_two (w : Vec2 ℚ) (n : ℕ) :
    w / (2 : ℚ) / ((2 : ℚ) ^ n) = w / ((2 : ℚ) ^ (n + 1)) := by
  rw [Vec2.eq_iff]
  constructor <;> simp <;> rw [div_div, ← pow_succ']

theorem Vec2.neg_div_div_two (w : Vec2 ℚ) (n : ℕ) :
    (-(w / (2 : ℚ))) / ((2 : ℚ) ^ n) = -(w / ((2 : ℚ) ^ (n + 1))) := by
  rw [Vec2.eq_iff]
  constructor <;> simp <;> rw [neg_div, div_div, ← pow_succ']

theorem Vec2.neg_neg_vec {α : Type} [Field α] (w : Vec2 α) : -(-w) = w := by
  rw [Vec2.eq_iff]
  constructor <;> simp

/-- The four possible steps between consecutive points at depth `n`: one cell
edge along either axis, in either direction. -/
def hilbertStep (x_vec y_vec : Vec2 ℚ) (n : ℕ) (u v : Vec2 ℚ) : Prop :=
  v - u = x_vec / ((2 : ℚ) ^ n) ∨ v - u = -(x_vec / ((2 : ℚ) ^ n)) ∨
    v - u = y_vec / ((2 : ℚ) ^ n) ∨ v - u = -(y_vec / ((2 : ℚ) ^ n))

/-- Every two consecutive points of the generated sequence differ by exactly
one signed cell edge of depth `n`. -/
theorem hilbert_curve_chain (p x_vec y_vec : Vec2 ℚ) (n : ℕ) :
    List.Chain' (hilbertStep x_vec y_vec n) (hilbert_curve p x_vec y_vec n) := by
  induction n generalizing p x_vec y_vec with
  | zero => simp [hilbert_curve]
  | succ n ih =>
    have incl1 : ∀ u v, hilbertStep (y_vec / (2 : ℚ)) (x_vec / (2 : ℚ)) n u v →
        hilbertStep x_vec y_vec (n + 1) u v := by
      intro u v h
      unfold hilbertStep at h ⊢
      rcases h with h | h | h | h
      · right; right; left; rw [h, Vec2.div_div_two]
      · right; right; right; rw [h, Vec2.div_div_two]
      · left; rw [h, Vec2.div_div_two]
      · right; left; rw [h, Vec2.div_div_two]
    have incl2 : ∀ u v, hilbertStep (x_vec / (2 : ℚ)) (y_vec / (2 : ℚ)) n u v →
        hilbertStep x_vec y_vec (n + 1) u v := by
      intro u v h
      unfold hilbertStep at h ⊢
      rcases h with h | h | h | h
      · left; rw [h, Vec2.div_div_two]
      · right; left; rw [h, Vec2.div_div_two]
      · right; right; left; rw [h, Vec2.div_div_two]
      · right; right; right; rw [h, Vec2.div_div_two]
    have incl4 : ∀ u v, hilbertStep (-(y_vec / (2 : ℚ))) (-(x_vec / (2 : ℚ))) n u v →
        hilbertStep x_vec y_vec (n + 1) u v := by
      intro u v h
      unfold hilbertStep at h ⊢
      rcases h with h | h | h | h
      · right; right; right; rw [h, Vec2.neg_div_div_two]
      · right; right; left; rw [h, Vec2.neg_div_div_two, Vec2.neg_neg_vec]
      · right; left; rw [h, Vec2.neg_div_div_two]
      · left; rw [h, Vec2.neg_div_div_two, Vec2.neg_neg_vec]
    simp only [hilbert_curve]
    apply List.chain'_append.mpr
    refine ⟨?_, (ih _ _ _).imp incl4, ?_⟩
    · apply List.chain'_append.mpr
      refine ⟨?_, (ih _ _ _).imp incl2, ?_⟩
      · apply List.chain'_append.mpr
        refine ⟨(ih _ _ _).imp incl1, (ih _ _ _).imp incl2, ?_⟩
        · intro a ha b hb
          rw [hilbert_curve_last] at ha
          rw [hilbert_curve_head] at hb
          simp only [Option.mem_def, Option.some.injEq] at ha hb
          subst ha hb
          left
          rw [Vec2.eq_iff]
          constructor <;> simp <;> (field_simp; ring)
      · intro a ha b hb
        rw [List.getLast?_append_of_ne_nil _ (hilbert_curve_ne_nil _ _ _ _),
          hilbert_curve_last] at ha
        rw [hilbert_curve_head] at hb
        simp only [Option.mem_def, Option.some.injEq] at ha hb
        subst ha hb
        right; right; left
        rw [Vec2.eq_iff]
        constructor <;> simp <;> (field_simp; ring)
    · intro a ha b hb
      rw [List.getLast?_append_of_ne_nil _ (hilbert_curve_ne_nil _ _ _ _),
        hilbert_curve_last] at ha
      rw [hilbert_curve_head] at hb
      simp only [Option.mem_def, Option.some.injEq] at ha hb
      subst ha hb
      right; left
      rw [Vec2.eq_iff]
      constructor <;> simp <;> (field_simp; ring)

/-- The integer cell coordinates visited by the Hilbert recursion, in traversal
order: an entry `(a, b)` at depth `n` denotes the point
`p + x_vec * (a / 2^(n+1)) + y_vec * (b / 2^(n+1))`. -/
def hilbertCoords : ℕ → List (ℤ × ℤ)
  | 0 => [(1, 1)]
  | n + 1 =>
      (hilbertCoords n).map (fun ab => (ab.2, ab.1))
        ++ (hilbertCoords n).map (fun ab => (2 ^ (n + 1) + ab.1, ab.2))
        ++ (hilbertCoords n).map (fun ab => (2 ^ (n + 1) + ab.1, 2 ^ (n + 1) + ab.2))
        ++ (hilbertCoords n).map (fun ab => (2 ^ (n + 1) - ab.2, 2 ^ (n + 2) - ab.1))

/-- The generated points are exactly the decoded cell coordinates, in order. -/
theorem hilbert_curve_eq_coords (n : ℕ) :
    ∀ (p x_vec y_vec : Vec2 ℚ),
      hilbert_curve p x_vec y_vec n =
        (hilbertCoords n).map (fun ab =>
          p + x_vec * ((ab.1 : ℚ) / (2 : ℚ) ^ (n + 1)) +
            y_vec * ((ab.2 : ℚ) / (2 : ℚ) ^ (n + 1))) := by
  induction n with
  | zero =>
    intro p x_vec y_vec
    simp only [hilbertCoords, List.map_cons, List.map_nil, hilbert_curve]
    congr 1
    rw [Vec2.eq_iff]
    constructor <;> simp <;> (push_cast; ring)
  | succ n ih =>
    intro p x_vec y_vec
    simp only [hilbert_curve, hilbertCoords, List.map_append, List.map_map]
    rw [ih, ih, ih, ih]
    congr 1
    · congr 1
      · congr 1
        · apply List.map_congr_left
          intro ab _
          rw [Vec2.eq_iff]
          constructor <;> simp [Function.comp] <;> (push_cast; field_simp; ring)
        · apply List.map_congr_left
          intro ab _
          rw [Vec2.eq_iff]
          constructor <;> simp [Function.comp] <;> (push_cast; field_simp; ring)
      · apply List.map_congr_left
        intro ab _
        rw [Vec2.eq_iff]
        constructor <;> simp [Function.comp] <;> (push_cast; field_simp; ring)
    · apply List.map_congr_left
      intro ab _
      rw [Vec2.eq_iff]
      constructor <;> simp [Function.comp] <;> (push_cast; field_simp; ring)

/-- Every coordinate pair at depth `n` lies strictly inside `(0, 2^(n+1))²`. -/
theorem hilbertCoords_bounds : ∀ n : ℕ, ∀ ab ∈ hilbertCoords n,
    0 < ab.1 ∧ ab.1 < 2 ^ (n + 1) ∧ 0 < ab.2 ∧ ab.2 < 2 ^ (n + 1) := by
  intro n
  induction n with
  | zero =>
    intro ab hab
    simp only [hilbertCoords, List.mem_singleton] at hab
    subst hab
    norm_num
  | succ n ih =>
    intro ab hab
    have hH : (0 : ℤ) < 2 ^ (n + 1) := by positivity
    have hH2 : (2 : ℤ) ^ (n + 1 + 1) = 2 * 2 ^ (n + 1) := by ring
    have hH3 : (2 : ℤ) ^ (n + 2) = 4 * 2 ^ n := by ring
    simp only [hilbertCoords, List.mem_append, List.mem_map] at hab
    rcases hab with ((⟨cd, hcd, rfl⟩ | ⟨cd, hcd, rfl⟩) | ⟨cd, hcd, rfl⟩) | ⟨cd, hcd, rfl⟩ <;>
      · obtain ⟨h1, h2, h3, h4⟩ := ih cd hcd
        dsimp only
        omega

/-- The traversal visits no cell twice: the coordinate list has no duplicate. -/
theorem hilbertCoords_nodup : ∀ n : ℕ, (hilbertCoords n).Nodup := by
  intro n
  induction n with
  | zero => simp [hilbertCoords]
  | succ n ih =>
    have hb := hilbertCoords_bounds n
    have hH2 : (2 : ℤ) ^ (n + 2) = 2 * 2 ^ (n + 1) := by ring
    have key : ∀ f g : ℤ × ℤ → ℤ × ℤ,
        (∀ u ∈ hilbertCoords n, ∀ v ∈ hilbertCoords n, f u ≠ g v) →
        List.Disjoint ((hilbertCoords n).map f) ((hilbertCoords n).map g) := by
      intro f g hne
      rw [List.disjoint_left]
      intro z hz1 hz2
      obtain ⟨u, hu, rfl⟩ := List.mem_map.mp hz1
      obtain ⟨v, hv, he⟩ := List.mem_map.mp hz2
      exact hne u hu v hv he.symm
    have hinj1 : Function.Injective (fun ab : ℤ × ℤ => (ab.2, ab.1)) := by
      intro u v h
      simp only [Prod.mk.injEq] at h
      exact Prod.ext_iff.mpr ⟨h.2, h.1⟩
    have hinj2 : Function.Injective
        (fun ab : ℤ × ℤ => ((2 : ℤ) ^ (n + 1) + ab.1, ab.2)) := by
      intro u v h
      simp only [Prod.mk.injEq] at h
      exact Prod.ext_iff.mpr ⟨by omega, h.2⟩
    have hinj3 : Function.Injective
        (fun ab : ℤ × ℤ => ((2 : ℤ) ^ (n + 1) + ab.1, (2 : ℤ) ^ (n + 1) + ab.2)) := by
      intro u v h
      simp only [Prod.mk.injEq] at h
      exact Prod.ext_iff.mpr ⟨by omega, by omega⟩
    have hinj4 : Function.Injective
        (fun ab : ℤ × ℤ => ((2 : ℤ) ^ (n + 1) - ab.2, (2 : ℤ) ^ (n + 2) - ab.1)) := by
      intro u v h
      simp only [Prod.mk.injEq] at h
      exact Prod.ext_iff.mpr ⟨by omega, by omega⟩
    simp only [hilbertCoords]
    rw [List.nodup_append, List.nodup_append, List.nodup_append]
    refine ⟨⟨⟨ih.map hinj1, ih.map hinj2, ?_⟩, ih.map hinj3, ?_⟩, ih.map hinj4, ?_⟩
    · apply key
      intro u hu v hv he
      obtain ⟨u1, u2, u3, u4⟩ := hb u hu
      obtain ⟨v1, v2, v3, v4⟩ := hb v hv
      simp only [Prod.mk.injEq] at he
      omega
    · rw [List.disjoint_append_left]
      constructor <;>
        · apply key
          intro u hu v hv he
          obtain ⟨u1, u2, u3, u4⟩ := hb u hu
          obtain ⟨v1, v2, v3, v4⟩ := hb v hv
          simp only [Prod.mk.injEq] at he
          omega
    · rw [List.disjoint_append_left, List.disjoint_append_left]
      refine ⟨⟨?_, ?_⟩, ?_⟩ <;>
        · apply key
          intro u hu v hv he
          obtain ⟨u1, u2, u3, u4⟩ := hb u hu
          obtain ⟨v1, v2, v3, v4⟩ := hb v hv
          simp only [Prod.mk.injEq] at he
          omega

theorem normSq_neg (v : Vec2 ℚ) : normSq (-v) = normSq v := by
  unfold normSq
  simp

theorem normSq_div (v : Vec2 ℚ) (c : ℚ) : normSq (v / c) = normSq v / c ^ 2 := by
  unfold normSq
  simp
  ring

theorem normSq_ne_zero (v : Vec2 ℚ) (h : v ≠ vec2 0 0) : normSq v ≠ 0 := by
  unfold normSq
  intro h0
  apply h
  have hx : v.x ^ 2 = 0 := by nlinarith [sq_nonneg v.x, sq_nonneg v.y]
  have hy : v.y ^ 2 = 0 := by nlinarith [sq_nonneg v.x, sq_nonneg v.y]
  rw [Vec2.eq_iff]
  refine ⟨?_, ?_⟩
  · simpa using (pow_eq_zero_iff (by norm_num : (2 : ℕ) ≠ 0)).mp hx
  · simpa using (pow_eq_zero_iff (by norm_num : (2 : ℕ) ≠ 0)).mp hy

/-- Two vectors that are orthogonal and both nonzero are linearly independent. -/
theorem vec_indep (x_vec y_vec : Vec2 ℚ) (hdot : dot x_vec y_vec = 0)
    (hx : normSq x_vec ≠ 0) (hy : normSq y_vec ≠ 0) (s t : ℚ)
    (h : x_vec * s + y_vec * t = vec2 0 0) : s = 0 ∧ t = 0 := by
  have h1 : x_vec.x * s + y_vec.x * t = 0 := by
    simpa using ((Vec2.eq_iff _ _).mp h).1
  have h2 : x_vec.y * s + y_vec.y * t = 0 := by
    simpa using ((Vec2.eq_iff _ _).mp h).2
  unfold dot at hdot
  unfold normSq at hx hy
  have hs : s * (x_vec.x ^ 2 + x_vec.y ^ 2) = 0 := by
    linear_combination x_vec.x * h1 + x_vec.y * h2 - t * hdot
  have ht : t * (y_vec.x ^ 2 + y_vec.y ^ 2) = 0 := by
    linear_combination y_vec.x * h1 + y_vec.y * h2 - s * hdot
  constructor
  · rcases mul_eq_zero.mp hs with h' | h'
    · exact h'
    · exact absurd h' hx
  · rcases mul_eq_zero.mp ht with h' | h'
    · exact h'
    · exact absurd h' hy

/-- For a rectangle span (orthogonal nonzero edges) the curve visits no point
twice. -/
theorem hilbert_curve_nodup (p x_vec y_vec : Vec2 ℚ) (n : ℕ)
    (hdot : dot x_vec y_vec = 0) (hx : normSq x_vec ≠ 0) (hy : normSq y_vec ≠ 0) :
    (hilbert_curve p x_vec y_vec n).Nodup := by
  rw [hilbert_curve_eq_coords n p x_vec y_vec]
  apply (hilbertCoords_nodup n).map
  intro ab cd h
  have h0 : x_vec * (((ab.1 : ℚ) - (cd.1 : ℚ)) / (2 : ℚ) ^ (n + 1)) +
      y_vec * (((ab.2 : ℚ) - (cd.2 : ℚ)) / (2 : ℚ) ^ (n + 1)) = vec2 0 0 := by
    have hx1 := ((Vec2.eq_iff _ _).mp h).1
    have hy1 := ((Vec2.eq_iff _ _).mp h).2
    simp only [Vec2.add_x, Vec2.add_y, Vec2.mul_x, Vec2.mul_y] at hx1 hy1
    rw [Vec2.eq_iff]
    refine ⟨?_, ?_⟩ <;> simp only [Vec2.add_x, Vec2.add_y, Vec2.mul_x, Vec2.mul_y, vec2_x, vec2_y]
    · linear_combination hx1
    · linear_combination hy1
  obtain ⟨hs, ht⟩ := vec_indep x_vec y_vec hdot hx hy _ _ h0
  have hp : ((2 : ℚ) ^ (n + 1)) ≠ 0 := by positivity
  rw [div_eq_zero_iff] at hs ht
  have ha1 : ab.1 = cd.1 := by
    rcases hs with hs | hs
    · have hq : (ab.1 : ℚ) = (cd.1 : ℚ) := by linarith [hs]
      exact_mod_cast hq
    · exact absurd hs hp
  have ha2 : ab.2 = cd.2 := by
    rcases ht with ht | ht
    · have hq : (ab.2 : ℚ) = (cd.2 : ℚ) := by linarith [ht]
      exact_mod_cast hq
    · exact absurd ht hp
  exact Prod.ext_iff.mpr ⟨ha1, ha2⟩

/-- C3 (amended): for a rectangle span with square cells (orthogonal edges of
equal length), any two consecutive points of the output are at distance exactly
one cell's side length — in particular never farther apart than one cell width
— and no point occurs twice.  (The frozen claim said one cell's *diagonal*; the
counterexample shows consecutive points are one cell side apart instead.) -/
theorem hilbert_curve_adjacent_nodup (p x_vec y_vec : Vec2 ℚ) (d : ℕ)
    (hdot : dot x_vec y_vec = 0) (hx : x_vec ≠ vec2 0 0)
    (hsq : normSq x_vec = normSq y_vec) :
    List.Chain' (fun u v => normSq (v - u) = normSq (x_vec / ((2 : ℚ) ^ d)))
      (hilbert_curve p x_vec y_vec d)
    ∧ (hilbert_curve p x_vec y_vec d).Nodup := by
  constructor
  · refine (hilbert_curve_chain p x_vec y_vec d).imp ?_
    intro u v h
    rcases h with h | h | h | h <;> rw [h]
    · rw [normSq_neg]
    · rw [normSq_div, normSq_div, ← hsq]
    · rw [normSq_neg, normSq_div, normSq_div, ← hsq]
  · exact hilbert_curve_nodup p x_vec y_vec d hdot (normSq_ne_zero _ hx)
      (by rw [← hsq]; exact normSq_ne_zero _ hx)

/-- Counterexample for C3 as frozen: at depth 1 on the 100×100 square the
first two consecutive points (25,25) and (75,25) are at squared distance 2500
(one cell side, 50), while one cell's diagonal has squared length 5000:
consecutive points are not one cell diagonal apart. -/
theorem hilbert_adjacent_not_diagonal_counterexample :
    hilbert_curve (vec2 (0 : ℚ) 0) (vec2 100 0) (vec2 0 100) 1 =
      [vec2 25 25, vec2 75 25, vec2 75 75, vec2 25 75]
    ∧ normSq (vec2 (75 : ℚ) 25 - vec2 25 25) = 2500
    ∧ normSq (vec2 (100 : ℚ) 0 / ((2 : ℚ) ^ 1) + vec2 (0 : ℚ) 100 / ((2 : ℚ) ^ 1)) = 5000
    ∧ (2500 : ℚ) ≠ 5000 := by
  refine ⟨?_, by norm_num [normSq], by norm_num [normSq], by norm_num⟩
  norm_num [hilbert_curve, Vec2.eq_iff]

/-- Witness for the amended C3 at depth 1 on the 100×100 square. -/
theorem hilbert_curve_adjacent_nodup_witness :
    (dot (vec2 (100 : ℚ) 0) (vec2 0 100) = 0)
    ∧ (vec2 (100 : ℚ) 0 ≠ vec2 0 0)
    ∧ (normSq (vec2 (100 : ℚ) 0) = normSq (vec2 (0 : ℚ) 100))
    ∧ (List.Chain' (fun u v => normSq (v - u) = normSq (vec2 (100 : ℚ) 0 / ((2 : ℚ) ^ 1)))
        (hilbert_curve (vec2 (0 : ℚ) 0) (vec2 100 0) (vec2 0 100) 1)
      ∧ (hilbert_curve (vec2 (0 : ℚ) 0) (vec2 100 0) (vec2 0 100) 1).Nodup) :=
  ⟨by norm_num [dot], by norm_num [Vec2.eq_iff], by norm_num [normSq],
    hilbert_curve_adjacent_nodup (vec2 0 0) (vec2 100 0) (vec2 0 100) 1
      (by norm_num [dot]) (by norm_num [Vec2.eq_iff]) (by norm_num [normSq])⟩
